import Mathlib

/-!
Verification development for the `square_map` repository.

The C++ sources are shallowly embedded over `List` with `Nat` indices:
the backing `std::vector<std::pair<Key, T>>` becomes `List (α × β)`, a
`container_iterator` becomes an index (`container.length` playing the
role of `end()`), and a `square_map::const_iterator` becomes a pair of
indices `(_it, _alt)`.  The generic comparator `Compare` is instantiated
at a linear order on keys, matching every instantiation in the
repository (`std::less<uint32_t>` and friends).  `std::lower_bound` /
`std::upper_bound` are embedded by their contract on the (sorted) ranges
the repository applies them to: the first position whose element makes
the predicate flip.  Reads that the C++ would perform out of bounds are
modelled with `Option` / `Except` so that every function is total.
-/

namespace SquareMapModel

variable {α β : Type} [LinearOrder α] [Inhabited α] [Inhabited β]

/-- Insert an element before index `i` of a list; models
`container.insert(begin() + i, x)` / `container.emplace(begin() + i, x)`
on the contiguous backing sequence. -/
def insertAt (i : Nat) (x : α × β) (l : List (α × β)) : List (α × β) :=
  l.take i ++ x :: l.drop i

/-- Remove the element at index `i`; models `container.erase(begin() + i)`. -/
def eraseAt (i : Nat) (l : List (α × β)) : List (α × β) :=
  l.take i ++ l.drop (i + 1)

/-- The key stored at index `i` (`(begin() + i)->first`); the default value is
only produced where the C++ guards the access, so it never matters. -/
def keyAt (l : List (α × β)) (i : Nat) : α :=
  (l.getD i default).1

/-- The key stored at index `i`, or `none` when the access would be out of
bounds (used where the C++ dereference is *not* guarded). -/
def keyQ (l : List (α × β)) (i : Nat) : Option α :=
  (l.get? i).map (·.1)

/-- Models `std::lower_bound(first, last, key, value_key_compare())` applied to
one run of the container: the index (relative to the run) of the first slot
whose key is not less than `k`, or the run's length when there is none. -/
def lowerBound (l : List (α × β)) (k : α) : Nat :=
  l.findIdx (fun e => decide (k ≤ e.1))

/-! ### `merge_with_binary_search` (src/merge_with_binary_search.h:7-21,
src/algorithms.h:19-33; both files contain the identical algorithm)

The two adjacent ranges `[first, middle)` and `[middle, last)` are passed as the
two lists `A` and `B`.  The C++ moves `B` into a scratch buffer, walks it in
reverse, and for each element `b` finds `pos = std::upper_bound(first, middle, b)`
(the first position of the still-unconsumed part of `A` whose element is
strictly greater than `b`), shifts `A[pos..middle)` to just below `last`, and
writes `b` immediately below the shifted block.  On lists this accumulates the
output region from the right: the untouched part of `A` is `takeWhile (¬ b < ·)`
and the shifted block is `dropWhile (¬ b < ·)`.  The comparator is the key
comparator used by `square_map` (`Compare()(a.first, b.first)`). -/

/-- The predicate of the `std::upper_bound` call: slot `a` has not-greater
key than the buffer element `b`, i.e. `!comp(b, a)`; `upper_bound` returns the
first position where it turns false. -/
def notLtKey (b a : α × β) : Bool :=
  decide (¬ b.1 < a.1)

def mwbsAux : List (α × β) → List (α × β) → List (α × β) → List (α × β)
  | A, [], out => A ++ out
  | A, b :: rest, out =>
    mwbsAux (A.takeWhile (notLtKey b)) rest
      (b :: A.dropWhile (notLtKey b) ++ out)

/-- `merge_with_binary_search(first, middle, last, key_compare)` with
`A = [first, middle)` and `B = [middle, last)`. -/
def merge_with_binary_search (A B : List (α × β)) : List (α × β) :=
  mwbsAux A B.reverse []

/-! ### `geert::remove_duplicates` (src/algorithms.h:51-81) -/

/-- Models the loop `while (first + 1 != last && comp(*first, *(first + 1)))
++first;`: splits the list into the strictly-increasing prefix that the loop
steps over and the suffix starting at the final position of `first`.  The same
loop shape reappears at src/algorithms.h:76 (there each stepped-over element is
also moved to the write cursor), so this helper models both. -/
def advanceUnique : List (α × β) → List (α × β) × List (α × β)
  | a :: b :: r =>
    if a.1 < b.1 then
      let p := advanceUnique (b :: r)
      (a :: p.1, p.2)
    else ([], a :: b :: r)
  | l => ([], l)

/-- Models `while (first + 1 != last && !comp(*first, *(first + 1))) ++first;`
(src/algorithms.h:70): the suffix from the final position of `first`. -/
def skipAdjEq : List (α × β) → List (α × β)
  | a :: b :: r => if ¬ a.1 < b.1 then skipAdjEq (b :: r) else a :: b :: r
  | l => l

/-- The compaction loop of `geert::remove_duplicates`
(src/algorithms.h:64-78), taking the suffix that starts at the first
duplicate.  One outer iteration drops the head (`++first`), skips the rest of
the adjacent-equal run, drops its last element (`if (++first == last) break`),
and then moves the following strictly-increasing block of unique elements to
the write cursor.  The final `if (first != last) *write_it++ = ...` is the
catch-all case.  `fuel` only serves termination; every outer iteration consumes
at least two elements, so `fuel = s.length` never runs out. -/
def rdOuter : Nat → List (α × β) → List (α × β)
  | 0, _ => []
  | fuel + 1, _a :: b :: r =>
    match skipAdjEq (b :: r) with
    | [] => []
    | _ :: s2 =>
      match s2 with
      | [] => []
      | _ :: _ =>
        let mv := advanceUnique s2
        mv.1 ++ rdOuter fuel mv.2
  | _ + 1, l => l

/-- `geert::remove_duplicates(first, last, comp)` with the key comparator,
returning the contents of `[first, pos)` for the returned `pos` (elements
beyond `pos` are garbage the caller erases). -/
def remove_duplicates (l : List (α × β)) : List (α × β) :=
  let p := advanceUnique l
  match p.2 with
  | [] => l
  | [_] => l
  | s => p.1 ++ rdOuter s.length s

/-! ### The `square_map` itself (src/square_map.h) -/

end SquareMapModel

/-- The state of a `geert::square_map`: the backing container `_container`,
the split index `_split` and the erased counter `_erased`
(src/square_map.h:484-486). -/
structure SquareMap (α β : Type) where
  container : List (α × β)
  split : Nat
  erased : Nat
deriving Repr, DecidableEq

namespace SquareMapModel

variable {α β : Type} [LinearOrder α] [Inhabited α] [Inhabited β]

/-- The left run `[0, _split)` of the container. -/
def leftRun (m : SquareMap α β) : List (α × β) :=
  m.container.take m.split

/-- The right run `[_split, size)` of the container. -/
def rightRun (m : SquareMap α β) : List (α × β) :=
  m.container.drop m.split

/-- `size()` (src/square_map.h:224): `_container.size() - _erased`. -/
def size (m : SquareMap α β) : Nat :=
  m.container.length - m.erased

/-- `find(key)` (src/square_map.h:458-475).  The result is the iterator pair
`(_it, _alt)`; `_it = container.length` plays the role of `end()` (iterator
equality only compares `_it`, src/square_map.h:98-100). -/
def find (m : SquareMap α β) (k : α) : Nat × Nat :=
  let n := m.container.length
  if m.split = 0 then
    let i := lowerBound m.container k
    if i = n ∨ k < keyAt m.container i then (n, n)
    else (i, n - 1)
  else
    let L := lowerBound (leftRun m) k
    let R := m.split + lowerBound (rightRun m) k
    if (L < m.split ∧ ¬ k < keyAt m.container L) ↔
       (R < n ∧ ¬ k < keyAt m.container R) then (n, n)
    else if L < m.split ∧ ¬ k < keyAt m.container L then (L, R)
    else if L ≠ m.split then (R, L)
    else (R, n - 1)

/-- `count(key)` (src/square_map.h:452-454): `find(key) != cend()`. -/
def count (m : SquareMap α β) (k : α) : Nat :=
  if (find m k).1 = m.container.length then 0 else 1

/-- `std::unique(begin, end, key_equal)` as used by `insert`
(src/square_map.h:436) followed by erasing the returned tail: of every
maximal group of elements whose key equals the key of the last kept element,
only the first is kept. -/
def uniqueAdjGo (cur : α × β) : List (α × β) → List (α × β)
  | [] => [cur]
  | b :: r => if cur.1 = b.1 then uniqueAdjGo cur r else cur :: uniqueAdjGo b r

/-- See `uniqueAdjGo`. -/
def uniqueAdj : List (α × β) → List (α × β)
  | [] => []
  | a :: r => uniqueAdjGo a r

/-- `insert(value)` (src/square_map.h:384-445).  `kMin` is `kMinSplitSize`,
which the source sets to 5 under `DEBUG` and 50 otherwise
(src/square_map.h:16-20); the embedding takes it as a parameter.  The result
is `((_it, _alt), inserted, new state)`. -/
def insert (kMin : Nat) (m : SquareMap α β) (v : α × β) :
    (Nat × Nat) × Bool × SquareMap α β :=
  let n := m.container.length
  let L := lowerBound (leftRun m) v.1
  let R := m.split + lowerBound (rightRun m) v.1
  let inL := L < m.split ∧ ¬ v.1 < keyAt m.container L
  let inR := R < n ∧ ¬ v.1 < keyAt m.container R
  if inL then
    if inR then
      let c1 := eraseAt R m.container
      ((L, R), false, ⟨c1.set L ((c1.getD L default).1, v.2), m.split, m.erased - 1⟩)
    else
      ((L, R), false,
        ⟨m.container.set L ((m.container.getD L default).1, v.2), m.split, m.erased⟩)
  else if inR then
    ((R, L), false,
      ⟨m.container.set R ((m.container.getD R default).1, v.2), m.split, m.erased⟩)
  else
    if n - R < kMin ∨ (n - m.split) * (n - m.split) * 4 < m.split then
      ((R, L), true, ⟨insertAt R v m.container, m.split, m.erased⟩)
    else
      let c1 := if m.split ≠ 0 then merge_with_binary_search (leftRun m) (rightRun m)
                else m.container
      let c2 := if m.erased ≠ 0 then uniqueAdj c1 else c1
      let pos := c2.length - 1
      ((pos, L), true, ⟨insertAt pos v c2, pos, 0⟩)

/-- `operator[]` (src/square_map.h:173-179): a lookup, and on failure an
insertion of a default-constructed value.  Returns the denoted value together
with the resulting map state. -/
def opIndex (kMin : Nat) (m : SquareMap α β) (k : α) : β × SquareMap α β :=
  let it := find m k
  if it.1 ≠ m.container.length then ((m.container.getD it.1 default).2, m)
  else
    let r := insert kMin m (k, (default : β))
    ((r.2.2.container.getD r.1.1 default).2, r.2.2)

/-- `split_point()` (src/square_map.h:209-212). -/
def split_point (m : SquareMap α β) : Nat × Nat :=
  let n := m.container.length
  if m.container.isEmpty ∨ m.split = 0 ∨ n ≤ m.split then (n, n)
  else find m (keyAt m.container m.split)

/-- The loop of `const_iterator::operator++` (src/square_map.h:52-91).
`initial` is `initial_key`; the state is `(_it, _alt)`.  The dereference
`_it->first` at src/square_map.h:67 happens before the `_it == _alt` test, so
an out-of-bounds read there yields `none` (the C++ behaviour is undefined).
`fuel` only serves termination of the `while (true)` loop. -/
def iterIncGo (c : List (α × β)) (initial : α) : Nat → Nat × Nat → Option (Nat × Nat)
  | 0, _ => none
  | fuel + 1, (i, a) =>
    if i = a then some (i + 1, i + 1)
    else
      match keyQ c (i + 1) with
      | none => none
      | some ki =>
        if i + 1 = a then some (i + 1, a)
        else
          match keyQ c a with
          | none => none
          | some ka =>
            if ki < ka then
              if ki < initial then some (a, a) else some (i + 1, a)
            else if ka < ki then
              if ki < initial then some (a, a) else some (a, i + 1)
            else iterIncGo c initial fuel (i + 1, a)

/-- `const_iterator::operator++` (src/square_map.h:52-91). -/
def iterInc (c : List (α × β)) (s : Nat × Nat) : Option (Nat × Nat) :=
  match keyQ c s.1 with
  | none => none
  | some initial => iterIncGo c initial (c.length + 2) s

/-- `cbegin()` (src/square_map.h:189-195). -/
def cbegin (m : SquareMap α β) : Nat × Nat :=
  let n := m.container.length
  if n - m.erased = 0 then (n, n)
  else if keyAt m.container m.split < keyAt m.container 0 then (m.split, 0)
  else (0, m.split)

/-- The sequence of elements denoted while stepping a cursor with `++` until it
compares equal to `end()` (iterator equality compares `_it` only); `none` if a
step would dereference out of bounds.  `fuel` only serves termination. -/
def iterToList (m : SquareMap α β) : Nat → Nat × Nat → Option (List (α × β))
  | 0, _ => none
  | fuel + 1, s =>
    if s.1 = m.container.length then some []
    else
      match m.container.get? s.1 with
      | none => none
      | some e =>
        match iterInc m.container s with
        | none => none
        | some s2 => (iterToList m fuel s2).map (fun r => e :: r)

/-- Full traversal `[begin, end)` of the map. -/
def toIterList (m : SquareMap α β) : Option (List (α × β)) :=
  iterToList m (2 * m.container.length + 4) (cbegin m)

/-- `erase(pos)` (src/square_map.h:248-293).  Returns the new state and the
returned iterator; `none` if `std::next(pos)` (src/square_map.h:290) would
dereference out of bounds. -/
def erase (m : SquareMap α β) (pos : Nat × Nat) :
    Option (SquareMap α β × (Nat × Nat)) :=
  if m.split = 0 then
    let c := eraseAt pos.1 m.container
    some (⟨c, 0, m.erased⟩, (pos.1, pos.1))
  else if m.split - 1 ≤ pos.1 then
    let c := eraseAt pos.1 m.container
    let past := pos.1
    let merged := past = 0 ∨ (past = c.length ∧ m.split = c.length) ∨
      (past = m.split ∧ keyAt c (past - 1) < keyAt c past)
    let m2 : SquareMap α β := ⟨c, if merged then 0 else m.split, m.erased⟩
    if past = c.length then some (m2, (c.length, c.length))
    else some (m2, find m2 (keyAt c past))
  else
    let k := keyAt m.container pos.1
    let idx := m.split + lowerBound (rightRun m) k
    match iterInc m.container pos with
    | none => none
    | some nxt =>
      match keyQ m.container nxt.1 with
      | none => none
      | some nk =>
        let m2 : SquareMap α β :=
          ⟨insertAt idx (k, (default : β)) m.container, m.split, m.erased + 1⟩
        some (m2, find m2 nk)

/-! ### The private `remove_duplicates` used by the public `merge()`
(src/square_map.h:340-381).  Unlike `geert::remove_duplicates` from
src/algorithms.h, its loop guards read `it->first` and `(it + 1)->first`
without first checking `it + 1 != end()`; the embedding makes every such read
total by returning `Except.error i` where `i` is the index of the first read
that falls out of bounds. -/

/-- `while (Compare()((it)->first, (it + 1)->first)) ++it;`
(src/square_map.h:359): returns the final index of `it`. -/
def rdpScan (l : List (α × β)) : Nat → Nat → Except Nat Nat
  | 0, i => .error i
  | fuel + 1, i =>
    match keyQ l i, keyQ l (i + 1) with
    | some x, some y => if x < y then rdpScan l fuel (i + 1) else .ok i
    | some _, none => .error (i + 1)
    | none, _ => .error i

/-- `do { it += 2; --_erased; } while (!Compare()(it->first, (it + 1)->first));`
(src/square_map.h:365-368): returns the final `(it, _erased)`. -/
def rdpSkip (l : List (α × β)) : Nat → Nat → Nat → Except Nat (Nat × Nat)
  | 0, i, _ => .error i
  | fuel + 1, i, e =>
    match keyQ l (i + 2), keyQ l (i + 3) with
    | some x, some y =>
      if ¬ x < y then rdpSkip l fuel (i + 2) (e - 1) else .ok (i + 2, e - 1)
    | some _, none => .error (i + 3)
    | none, _ => .error (i + 2)

/-- `do { *write_it++ = std::move(*it++); } while (Compare()(it->first,
(it + 1)->first));` (src/square_map.h:371-373): returns the final `it` and the
elements written. -/
def rdpCopy (l : List (α × β)) : Nat → Nat → List (α × β) → Except Nat (Nat × List (α × β))
  | 0, i, _ => .error i
  | fuel + 1, i, acc =>
    match l.get? i with
    | none => .error i
    | some e =>
      let acc2 := acc ++ [e]
      match keyQ l (i + 1), keyQ l (i + 2) with
      | some x, some y =>
        if x < y then rdpCopy l fuel (i + 1) acc2 else .ok (i + 1, acc2)
      | some _, none => .error (i + 2)
      | none, _ => .error (i + 1)

/-- The outer `do { ... } while (_erased);` loop (src/square_map.h:363-374). -/
def rdpOuter (l : List (α × β)) : Nat → Nat → Nat → List (α × β) →
    Except Nat (Nat × List (α × β))
  | 0, i, _, _ => .error i
  | fuel + 1, i, e, acc => do
    let se ← rdpSkip l (l.length + 1) i e
    let ca ← rdpCopy l (l.length + 1) se.1 acc
    if se.2 ≠ 0 then rdpOuter l fuel ca.1 se.2 ca.2 else .ok (ca.1, ca.2)

/-- The private `square_map::remove_duplicates` (src/square_map.h:352-381),
acting on a state whose runs have just been merged. -/
def mergeRemoveDuplicates (m : SquareMap α β) : Except Nat (SquareMap α β) := do
  if m.erased = 0 then return m
  let p ← rdpScan m.container (m.container.length + 1) 0
  let r ← rdpOuter m.container (m.erased + 1) p m.erased []
  return ⟨m.container.take p ++ r.2 ++ m.container.drop r.1, m.split, 0⟩

/-- The public `merge()` (src/square_map.h:340-349): merge the two runs, set
`_split = 0`, then run the private `remove_duplicates`. -/
def squareMerge (m : SquareMap α β) : Except Nat (SquareMap α β) :=
  if m.split = 0 then .ok m
  else mergeRemoveDuplicates
    ⟨merge_with_binary_search (leftRun m) (rightRun m), 0, m.erased⟩

/-- The index of the first out-of-bounds read of a faulting computation, or
`none` when every access stayed in bounds. -/
def faultIndex {σ : Type} : Except Nat σ → Option Nat
  | .error i => some i
  | .ok _ => none

end SquareMapModel

/-! ### Steady-state invariants

`Valid` renders invariants 1-4 of the specification together with the erased
accounting, exactly what the repository's own `check_valid` test helper
(src/square_map_test.cpp:39-99) verifies: both runs strictly sorted, the first
right-run key below the last left-run key, the last slot carrying the overall
maximum, a flat map having no erased slots, and `_erased` counting the keys
present in both runs. -/

namespace SquareMapModel

variable {α β : Type} [LinearOrder α] [Inhabited α] [Inhabited β]

/-- The key sequence of a run. -/
def keys (l : List (α × β)) : List α :=
  l.map Prod.fst

/-- Strictly increasing by key (`is_strictly_sorted` of the test suite). -/
def StrictChain (l : List (α × β)) : Prop :=
  l.Chain' (fun x y => x.1 < y.1)

/-- Executable check for `StrictChain`. -/
def strictChainB : List (α × β) → Bool
  | a :: b :: r => decide (a.1 < b.1) && strictChainB (b :: r)
  | _ => true

omit [Inhabited α] [Inhabited β] in
theorem strictChainB_iff (l : List (α × β)) : strictChainB l = true ↔ StrictChain l := by
  match l with
  | [] => simp [strictChainB, StrictChain]
  | [a] => simp [strictChainB, StrictChain]
  | a :: b :: r =>
    have ih := strictChainB_iff (b :: r)
    unfold StrictChain at ih ⊢
    rw [List.chain'_cons, ← ih]
    simp [strictChainB]

instance (l : List (α × β)) : Decidable (StrictChain l) :=
  decidable_of_iff _ (strictChainB_iff l)

/-- Keys of the left run `[0, _split)`. -/
def leftKeys (m : SquareMap α β) : List α :=
  keys (leftRun m)

/-- Keys of the right run `[_split, size)`. -/
def rightKeys (m : SquareMap α β) : List α :=
  keys (rightRun m)

/-- Steady-state validity: invariants 1-4 of the specification plus the erased
accounting, as checked by the repository's `check_valid`. -/
def Valid (m : SquareMap α β) : Prop :=
  (m.split = 0 ∨ m.split < m.container.length) ∧
  StrictChain (leftRun m) ∧
  StrictChain (rightRun m) ∧
  (m.split ≠ 0 → keyAt m.container m.split < keyAt m.container (m.split - 1)) ∧
  (m.split ≠ 0 →
    keyAt m.container (m.split - 1) < keyAt m.container (m.container.length - 1)) ∧
  (m.split = 0 → m.erased = 0) ∧
  m.erased = (rightKeys m).countP (fun k => decide (k ∈ leftKeys m))

instance (m : SquareMap α β) : Decidable (Valid m) :=
  inferInstanceAs (Decidable ((m.split = 0 ∨ m.split < m.container.length) ∧
    StrictChain (leftRun m) ∧
    StrictChain (rightRun m) ∧
    (m.split ≠ 0 → keyAt m.container m.split < keyAt m.container (m.split - 1)) ∧
    (m.split ≠ 0 →
      keyAt m.container (m.split - 1) < keyAt m.container (m.container.length - 1)) ∧
    (m.split = 0 → m.erased = 0) ∧
    m.erased = (rightKeys m).countP (fun k => decide (k ∈ leftKeys m))))

/-- A key that has been erased: it appears in both runs (as a duplicate pair). -/
def ErasedKey (m : SquareMap α β) (k : α) : Prop :=
  k ∈ leftKeys m ∧ k ∈ rightKeys m

instance (m : SquareMap α β) (k : α) : Decidable (ErasedKey m k) :=
  inferInstanceAs (Decidable (k ∈ leftKeys m ∧ k ∈ rightKeys m))

/-- A live key: present in exactly one of the two runs. -/
def LiveKey (m : SquareMap α β) (k : α) : Prop :=
  (k ∈ leftKeys m ∧ k ∉ rightKeys m) ∨ (k ∉ leftKeys m ∧ k ∈ rightKeys m)

instance (m : SquareMap α β) (k : α) : Decidable (LiveKey m k) :=
  inferInstanceAs (Decidable ((k ∈ leftKeys m ∧ k ∉ rightKeys m) ∨
    (k ∉ leftKeys m ∧ k ∈ rightKeys m)))

/-- The number of live keys of a map. -/
def liveCount (m : SquareMap α β) : Nat :=
  (leftKeys m).countP (fun k => decide (k ∉ rightKeys m)) +
  (rightKeys m).countP (fun k => decide (k ∉ leftKeys m))

/-- The value stored with a live key (in whichever run holds it). -/
def assocValue (m : SquareMap α β) (k : α) : β :=
  match (leftRun m).find? (fun e => decide (e.1 = k)) with
  | some e => e.2
  | none =>
    match (rightRun m).find? (fun e => decide (e.1 = k)) with
    | some e => e.2
    | none => default

end SquareMapModel

/-! ### Concrete steady states used to settle the claims -/

namespace SquareMapModel

/-- A steady-state map with one erased pair (key 40): left run
`10 20 30 40 50 60 70`, right run `15 25 40 75 80`, `_split = 7`,
`_erased = 1`. -/
def C1State : SquareMap Nat Nat :=
  ⟨[(10, 1), (20, 2), (30, 3), (40, 4), (50, 5), (60, 6), (70, 7),
    (15, 0), (25, 0), (40, 0), (75, 0), (80, 0)], 7, 1⟩

/-- C1: the claim fails on the code.  `C1State` is steady (it even satisfies
the complexity invariants 5 and 6) and key 40 is erased, so `find 40` is
`end`.  Inserting the fresh key 11 with `kMinSplitSize = 5` (the `DEBUG`
value) takes the rebalance path: the runs are merged and, since `_erased > 0`,
compacted -- but with `std::unique` (src/square_map.h:436), which keeps one
copy of the adjacent duplicate pair.  Afterwards `find 40` no longer returns
`end`, the traversal yields key 40, and the live keys grew by two (11 and the
resurrected 40).  The repository itself names this "the bug: std::unique only
removes one duplicate, not both" in the disabled test
`DuplicateRemoval.InsertAfterEraseShouldNotUndoErasure`
(src/square_map_test.cpp:707-728). -/
theorem C1_rebalance_resurrects_erased_key :
    Valid C1State ∧ ErasedKey C1State 40 ∧ liveCount C1State = 10 ∧
    (find C1State 40).1 = C1State.container.length ∧
    (insert 5 C1State (11, 99)).2.1 = true ∧
    (insert 5 C1State (11, 99)).2.2.split = 10 ∧
    (find (insert 5 C1State (11, 99)).2.2 40).1 ≠
      (insert 5 C1State (11, 99)).2.2.container.length ∧
    liveCount (insert 5 C1State (11, 99)).2.2 = 12 ∧
    (toIterList (insert 5 C1State (11, 99)).2.2).map (keys) =
      some [10, 11, 15, 20, 25, 30, 40, 50, 60, 70, 75, 80] := by
  decide

/-- A steady-state map with one erased pair (key 2): left run `1 2 3`, right
run `0 2 4`, `_split = 3`, `_erased = 1`. -/
def C2State : SquareMap Nat Nat :=
  ⟨[(1, 1), (2, 2), (3, 3), (0, 0), (2, 0), (4, 4)], 3, 1⟩

/-- C2: the claim fails on the code.  `C2State` is steady (invariants 1-6 all
hold) and key 2 is erased, yet the full traversal `[begin, end)` yields key 2:
after yielding 1 from the left run, `operator++` lands on the equal-key pair,
loops to skip it, but only advances `_it`, leaving `_alt` on the right-run
duplicate, which the subsequent swap then yields (src/square_map.h:80-89
against the stated intent of src/square_map.h:87-89). -/
theorem C2_iteration_yields_erased_key :
    Valid C2State ∧ ErasedKey C2State 2 ∧ ¬ LiveKey C2State 2 ∧
    (toIterList C2State).map (keys) = some [0, 1, 2, 3, 4] := by
  decide

/-- A steady-state map with no erased pair: left run `1 2 3`, right run
`0 4`. -/
def C3Start : SquareMap Nat Nat :=
  ⟨[(1, 1), (2, 2), (3, 3), (0, 0), (4, 4)], 3, 0⟩

/-- The state after erasing key 2 (strictly inside the left run) from
`C3Start`: a duplicate marker `(2, 0)` is inserted into the right run. -/
def C3After : SquareMap Nat Nat :=
  ⟨[(1, 1), (2, 2), (3, 3), (0, 0), (2, 0), (4, 4)], 3, 1⟩

/-- C3: the claim fails on the code.  `size()` returns
`_container.size() - _erased` (src/square_map.h:224), but each erased key
occupies two slots, so the live count is `_container.size() - 2 * _erased`.
Erasing key 2 strictly inside the left run of `C3Start` leaves `size()`
unchanged at 5 although the live count drops to 4, and the backing sequence
afterwards has 6 = size() + 1·erased slots, not size() + 2·erased.  The
repository's own `check_valid` (src/square_map_test.cpp:96-98) and the
expectation `EXPECT_EQ(map.size(), 10)` (src/square_map_test.cpp:780) demand
the claimed accounting. -/
theorem C3_size_overcounts_after_left_erase :
    Valid C3Start ∧ size C3Start = 5 ∧ liveCount C3Start = 5 ∧
    erase C3Start (find C3Start 2) = some (C3After, (2, 5)) ∧
    Valid C3After ∧ size C3After = 5 ∧ liveCount C3After = 4 ∧
    C3After.container.length = 6 ∧ C3After.erased = 1 := by
  decide

/-- A steady-state map with one erased pair (key 2): left run `1 2 3`, right
run `2 4`. -/
def C10State : SquareMap Nat Nat :=
  ⟨[(1, 1), (2, 2), (3, 3), (2, 0), (4, 4)], 3, 1⟩

/-- C10: the claim fails on the code.  Merging the runs of `C10State` gives
the 5-slot sorted sequence `1 2 2 3 4`; the duplicate-removal pass of
`merge()` then runs its copy-loop guard `Compare()(it->first, (it+1)->first)`
(src/square_map.h:373) with `it` on the final slot, reading index 5 = the
container length, i.e. one past the end. -/
theorem C10_merge_duplicate_pass_reads_past_end :
    Valid C10State ∧ C10State.erased = 1 ∧
    (merge_with_binary_search (leftRun C10State) (rightRun C10State)).length = 5 ∧
    faultIndex (squareMerge C10State) = some 5 := by
  decide

/-- C5 counterexample state: identical to `C2State` (key 2 erased). -/
def C5State : SquareMap Nat Nat :=
  ⟨[(1, 1), (2, 2), (3, 3), (0, 0), (2, 0), (4, 4)], 3, 1⟩

/-- C5: the claim as stated fails on the code.  Key 2 of `C5State` is erased,
so `count(2) == 0` immediately before the call, yet re-inserting it takes the
both-sides branch of `insert` (src/square_map.h:396-401), which removes the
right-side marker and reports `inserted = false`. -/
theorem C5_counterexample_erased_reinsert :
    Valid C5State ∧ ErasedKey C5State 2 ∧ count C5State 2 = 0 ∧
    (insert 5 C5State (2, 9)).2.1 = false := by
  decide

/-- C6 counterexample state: a flat one-element map with value 5 at key 1. -/
def C6State : SquareMap Nat Nat :=
  ⟨[(1, 5)], 0, 0⟩

/-- C6: the claim as stated fails on the code.  For the live key 1 with
stored value 5, `operator[]` returns the stored value and leaves the map
unchanged, whereas `insert(1, default)` overwrites the stored value with the
default (src/square_map.h:405-407), so the two computations disagree in both
the denoted value (5 versus 0) and the resulting state. -/
theorem C6_counterexample_live_key :
    Valid C6State ∧ LiveKey C6State 1 ∧
    opIndex 5 C6State 1 = (5, C6State) ∧
    (insert 5 C6State (1, 0)).2.2.container = [(1, 0)] ∧
    opIndex 5 C6State 1 ≠
      (((insert 5 C6State (1, 0)).2.2.container.getD
          (insert 5 C6State (1, 0)).1.1 default).2,
        (insert 5 C6State (1, 0)).2.2) := by
  decide

/-- C9 counterexample state: left run `1 2 3`, right run `2 4 9`; the first
right-run slot is the erased marker of key 2. -/
def C9State : SquareMap Nat Nat :=
  ⟨[(1, 1), (2, 2), (3, 3), (2, 0), (4, 4), (9, 9)], 3, 1⟩

/-- C9: the claim as stated fails on the code.  `C9State` is steady with
`_split = 3 ≠ 0`, but the slot at the split is the erased marker of key 2, so
`split_point()`, which is implemented as `find(_container[_split].first)`
(src/square_map.h:211), returns `end` although the map is not flat. -/
theorem C9_counterexample_erased_split_slot :
    Valid C9State ∧ C9State.split = 3 ∧ C9State.container.length = 6 ∧
    ErasedKey C9State (keyAt C9State.container C9State.split) ∧
    split_point C9State = (6, 6) := by
  decide

end SquareMapModel

/-! ### Correctness of `merge_with_binary_search` (claim C7)

The in-place algorithm is first proved equal to the canonical left-biased
recursive merge `mergeSpec`; sortedness, permutation and stability are then
transferred. -/

namespace SquareMapModel

variable {α β : Type} [LinearOrder α] [Inhabited α] [Inhabited β]

instance : IsTrans (α × β) (fun x y => x.1 ≤ y.1) :=
  ⟨fun _ _ _ h1 h2 => le_trans h1 h2⟩

/-- The canonical stable merge (left-biased: on equal keys the element of the
first list comes first).  Only used to reason about
`merge_with_binary_search`. -/
def mergeSpec : List (α × β) → List (α × β) → List (α × β)
  | [], B => B
  | a :: A, [] => a :: A
  | a :: A, b :: B =>
    if b.1 < a.1 then b :: mergeSpec (a :: A) B else a :: mergeSpec A (b :: B)

omit [Inhabited α] [Inhabited β] in
theorem mergeSpec_nil_right (A : List (α × β)) : mergeSpec A [] = A := by
  cases A <;> simp [mergeSpec]

omit [Inhabited α] [Inhabited β] in
theorem notLtKey_false {b a : α × β} (h : b.1 < a.1) : notLtKey b a = false := by
  simp [notLtKey, h]

omit [Inhabited α] [Inhabited β] in
theorem notLtKey_true {b a : α × β} (h : ¬ b.1 < a.1) : notLtKey b a = true := by
  simp [notLtKey, h]

omit [LinearOrder α] [Inhabited α] [Inhabited β] in
theorem takeWhile_cons_pos {p : α × β → Bool} {a : α × β} (l : List (α × β))
    (h : p a = true) : (a :: l).takeWhile p = a :: l.takeWhile p := by
  simp [List.takeWhile_cons, h]

omit [LinearOrder α] [Inhabited α] [Inhabited β] in
theorem takeWhile_cons_neg {p : α × β → Bool} {a : α × β} (l : List (α × β))
    (h : p a = false) : (a :: l).takeWhile p = [] := by
  simp [List.takeWhile_cons, h]

omit [LinearOrder α] [Inhabited α] [Inhabited β] in
theorem dropWhile_cons_pos {p : α × β → Bool} {a : α × β} (l : List (α × β))
    (h : p a = true) : (a :: l).dropWhile p = l.dropWhile p := by
  simp [List.dropWhile_cons, h]

omit [LinearOrder α] [Inhabited α] [Inhabited β] in
theorem dropWhile_cons_neg {p : α × β → Bool} {a : α × β} (l : List (α × β))
    (h : p a = false) : (a :: l).dropWhile p = a :: l := by
  simp [List.dropWhile_cons, h]

omit [Inhabited α] [Inhabited β] in
theorem mergeSpec_single (A : List (α × β)) (b : α × β) :
    mergeSpec A [b] = A.takeWhile (notLtKey b) ++ b :: A.dropWhile (notLtKey b) := by
  induction A with
  | nil => simp [mergeSpec]
  | cons a A ih =>
    by_cases h : b.1 < a.1
    · rw [takeWhile_cons_neg A (notLtKey_false h), dropWhile_cons_neg A (notLtKey_false h)]
      simp [mergeSpec, h, mergeSpec_nil_right]
    · rw [takeWhile_cons_pos A (notLtKey_true h), dropWhile_cons_pos A (notLtKey_true h),
        show mergeSpec (a :: A) [b] = a :: mergeSpec A [b] by rw [mergeSpec, if_neg h],
        ih, List.cons_append]

omit [Inhabited α] [Inhabited β] in
/-- Appending a dominating element to the second list of a merge splits the
first list at its upper bound. -/
theorem mergeSpec_append_last :
    ∀ (A B : List (α × β)) (b : α × β), (∀ x ∈ B, ¬ b.1 < x.1) →
      mergeSpec A (B ++ [b]) =
        mergeSpec (A.takeWhile (notLtKey b)) B ++ b :: A.dropWhile (notLtKey b)
  | [], B, b, _ => by simp [mergeSpec]
  | a :: A, [], b, _ => by
    simpa [mergeSpec_nil_right] using mergeSpec_single (a :: A) b
  | a :: A, b0 :: B, b, hb => by
    have hb0b : ¬ b.1 < b0.1 := hb b0 (List.mem_cons_self b0 B)
    by_cases hb0 : b0.1 < a.1
    · have ih := mergeSpec_append_last (a :: A) B b
        (fun x hx => hb x (List.mem_cons_of_mem _ hx))
      rw [List.cons_append,
        show mergeSpec (a :: A) (b0 :: (B ++ [b])) =
          b0 :: mergeSpec (a :: A) (B ++ [b]) by rw [mergeSpec, if_pos hb0],
        ih]
      by_cases hba : b.1 < a.1
      · rw [takeWhile_cons_neg A (notLtKey_false hba),
          dropWhile_cons_neg A (notLtKey_false hba)]
        simp [mergeSpec, hb0]
      · rw [takeWhile_cons_pos A (notLtKey_true hba),
          dropWhile_cons_pos A (notLtKey_true hba),
          show mergeSpec (a :: A.takeWhile (notLtKey b)) (b0 :: B) =
            b0 :: mergeSpec (a :: A.takeWhile (notLtKey b)) B by
          rw [mergeSpec, if_pos hb0]]
        simp
    · have hba : ¬ b.1 < a.1 :=
        fun hlt => hb0 (lt_of_le_of_lt (not_lt.mp hb0b) hlt)
      have ih := mergeSpec_append_last A (b0 :: B) b hb
      rw [List.cons_append] at ih
      rw [List.cons_append,
        show mergeSpec (a :: A) (b0 :: (B ++ [b])) =
          a :: mergeSpec A (b0 :: (B ++ [b])) by rw [mergeSpec, if_neg hb0],
        ih, takeWhile_cons_pos A (notLtKey_true hba),
        dropWhile_cons_pos A (notLtKey_true hba),
        show mergeSpec (a :: A.takeWhile (notLtKey b)) (b0 :: B) =
          a :: mergeSpec (A.takeWhile (notLtKey b)) (b0 :: B) by
        rw [mergeSpec, if_neg hb0]]
      simp
termination_by A B _ _ => A.length + B.length

omit [Inhabited α] [Inhabited β] in
/-- The accumulating loop of `merge_with_binary_search` computes `mergeSpec`:
the buffer is walked largest-first, so each processed element dominates the
rest of the buffer. -/
theorem mwbsAux_eq_mergeSpec (revB : List (α × β)) :
    ∀ A out : List (α × β), revB.Pairwise (fun x y => y.1 ≤ x.1) →
      mwbsAux A revB out = mergeSpec A revB.reverse ++ out := by
  induction revB with
  | nil => intro A out _; simp [mwbsAux, mergeSpec_nil_right]
  | cons b rest ih =>
    intro A out h
    rw [List.pairwise_cons] at h
    rw [mwbsAux, ih _ _ h.2, List.reverse_cons,
      mergeSpec_append_last A rest.reverse b
        (fun x hx => not_lt.mpr (h.1 x (List.mem_reverse.mp hx)))]
    simp

omit [Inhabited α] [Inhabited β] in
/-- `merge_with_binary_search` is the canonical stable merge whenever the
second range is sorted. -/
theorem merge_with_binary_search_eq_mergeSpec (A B : List (α × β))
    (hB : B.Chain' fun x y => x.1 ≤ y.1) :
    merge_with_binary_search A B = mergeSpec A B := by
  rw [merge_with_binary_search, mwbsAux_eq_mergeSpec B.reverse A []]
  · simp
  · rw [List.pairwise_reverse]
    exact List.chain'_iff_pairwise.mp hB

omit [Inhabited α] [Inhabited β] in
theorem mergeSpec_perm : ∀ A B : List (α × β), (mergeSpec A B).Perm (A ++ B)
  | [], B => by simp [mergeSpec]
  | a :: A, [] => by simp [mergeSpec]
  | a :: A, b :: B => by
    by_cases h : b.1 < a.1
    · rw [mergeSpec, if_pos h]
      exact ((mergeSpec_perm (a :: A) B).cons b).trans List.perm_middle.symm
    · rw [mergeSpec, if_neg h]
      exact (mergeSpec_perm A (b :: B)).cons a
termination_by A B => A.length + B.length

omit [Inhabited α] [Inhabited β] in
theorem mergeSpec_pairwise :
    ∀ A B : List (α × β), A.Pairwise (fun x y => x.1 ≤ y.1) →
      B.Pairwise (fun x y => x.1 ≤ y.1) →
      (mergeSpec A B).Pairwise (fun x y => x.1 ≤ y.1)
  | [], B, _, hB => by simpa [mergeSpec] using hB
  | a :: A, [], hA, _ => by simpa [mergeSpec] using hA
  | a :: A, b :: B, hA, hB => by
    rw [List.pairwise_cons] at hA hB
    by_cases h : b.1 < a.1
    · rw [mergeSpec, if_pos h, List.pairwise_cons]
      refine ⟨fun y hy => ?_, mergeSpec_pairwise (a :: A) B
        (List.pairwise_cons.mpr hA) hB.2⟩
      rcases List.mem_append.mp ((mergeSpec_perm (a :: A) B).mem_iff.mp hy) with hl | hr
      · rcases List.mem_cons.mp hl with rfl | hl
        · exact le_of_lt h
        · exact le_of_lt (lt_of_lt_of_le h (hA.1 y hl))
      · exact hB.1 y hr
    · rw [mergeSpec, if_neg h, List.pairwise_cons]
      refine ⟨fun y hy => ?_, mergeSpec_pairwise A (b :: B) hA.2
        (List.pairwise_cons.mpr hB)⟩
      rcases List.mem_append.mp ((mergeSpec_perm A (b :: B)).mem_iff.mp hy) with hl | hr
      · exact hA.1 y hl
      · rcases List.mem_cons.mp hr with rfl | hr
        · exact not_lt.mp h
        · exact le_trans (not_lt.mp h) (hB.1 y hr)
termination_by A B _ _ => A.length + B.length

omit [Inhabited α] [Inhabited β] in
/-- Stability: for each key the merge keeps all its carriers in order, those
of the first list first. -/
theorem mergeSpec_filter_key :
    ∀ A B : List (α × β), A.Pairwise (fun x y => x.1 ≤ y.1) → ∀ k : α,
      (mergeSpec A B).filter (fun e => decide (e.1 = k)) =
        A.filter (fun e => decide (e.1 = k)) ++ B.filter (fun e => decide (e.1 = k))
  | [], B, _, k => by simp [mergeSpec]
  | a :: A, [], _, k => by simp [mergeSpec]
  | a :: A, b :: B, hA, k => by
    by_cases h : b.1 < a.1
    · rw [mergeSpec, if_pos h, List.filter_cons,
        mergeSpec_filter_key (a :: A) B hA k]
      by_cases hbk : b.1 = k
      · have hfilter : (a :: A).filter (fun e => decide (e.1 = k)) = [] := by
          rw [List.filter_eq_nil_iff]
          intro x hx
          have hkx : b.1 < x.1 := by
            rcases List.mem_cons.mp hx with rfl | hx
            · exact h
            · exact lt_of_lt_of_le h ((List.pairwise_cons.mp hA).1 x hx)
          simp only [decide_eq_true_eq]
          intro hxk
          exact absurd (hxk ▸ hkx) (by simp [hbk])
        rw [if_pos (by simpa using hbk), hfilter,
          show (b :: B).filter (fun e => decide (e.1 = k)) =
            b :: B.filter (fun e => decide (e.1 = k)) by
          rw [List.filter_cons, if_pos (by simpa using hbk)]]
        simp
      · rw [if_neg (by simpa using hbk),
          show (b :: B).filter (fun e => decide (e.1 = k)) =
            B.filter (fun e => decide (e.1 = k)) by
          rw [List.filter_cons, if_neg (by simpa using hbk)]]
    · rw [mergeSpec, if_neg h, List.filter_cons,
        mergeSpec_filter_key A (b :: B) (List.pairwise_cons.mp hA).2 k]
      by_cases hak : a.1 = k
      · rw [if_pos (by simpa using hak),
          show (a :: A).filter (fun e => decide (e.1 = k)) =
            a :: A.filter (fun e => decide (e.1 = k)) by
          rw [List.filter_cons, if_pos (by simpa using hak)]]
        simp
      · rw [if_neg (by simpa using hak),
          show (a :: A).filter (fun e => decide (e.1 = k)) =
            A.filter (fun e => decide (e.1 = k)) by
          rw [List.filter_cons, if_neg (by simpa using hak)]]
termination_by A B _ _ => A.length + B.length

omit [Inhabited α] [Inhabited β] in
/-- C7: for adjacent ranges `A = [first, middle)` and `B = [middle, last)`,
each sorted under the (key) comparator, `merge_with_binary_search` produces a
sorted permutation of the input, stably: for every key, the slots carrying it
appear in their original order with those of `A` before those of `B`. -/
theorem C7_merge_with_binary_search_correct (A B : List (α × β))
    (hA : A.Chain' fun x y => x.1 ≤ y.1) (hB : B.Chain' fun x y => x.1 ≤ y.1) :
    (merge_with_binary_search A B).Perm (A ++ B) ∧
    (merge_with_binary_search A B).Chain' (fun x y => x.1 ≤ y.1) ∧
    ∀ k : α, (merge_with_binary_search A B).filter (fun e => decide (e.1 = k)) =
      A.filter (fun e => decide (e.1 = k)) ++ B.filter (fun e => decide (e.1 = k)) := by
  rw [merge_with_binary_search_eq_mergeSpec A B hB]
  refine ⟨mergeSpec_perm A B, ?_, fun k =>
    mergeSpec_filter_key A B (List.chain'_iff_pairwise.mp hA) k⟩
  exact List.chain'_iff_pairwise.mpr
    (mergeSpec_pairwise A B (List.chain'_iff_pairwise.mp hA)
      (List.chain'_iff_pairwise.mp hB))

/-- Witness for C7 at concrete sorted ranges sharing the key 2 (carried with
value 0 in the first range and value 9 in the second). -/
theorem C7_witness :
    (([(1, 0), (2, 0), (4, 0)] : List (Nat × Nat)).Chain' fun x y => x.1 ≤ y.1) ∧
    (([(2, 9), (3, 9)] : List (Nat × Nat)).Chain' fun x y => x.1 ≤ y.1) ∧
    ((merge_with_binary_search [(1, 0), (2, 0), (4, 0)] [(2, 9), (3, 9)]).Perm
      ([(1, 0), (2, 0), (4, 0)] ++ [(2, 9), (3, 9)]) ∧
    (merge_with_binary_search [(1, 0), (2, 0), (4, 0)] [(2, 9), (3, 9)]).Chain'
      (fun x y => x.1 ≤ y.1) ∧
    ∀ k : Nat,
      (merge_with_binary_search [(1, 0), (2, 0), (4, 0)] [(2, 9), (3, 9)]).filter
          (fun e => decide (e.1 = k)) =
        ([(1, 0), (2, 0), (4, 0)] : List (Nat × Nat)).filter (fun e => decide (e.1 = k)) ++
          ([(2, 9), (3, 9)] : List (Nat × Nat)).filter (fun e => decide (e.1 = k))) := by
  have h1 : (([(1, 0), (2, 0), (4, 0)] : List (Nat × Nat)).Chain'
      fun x y => x.1 ≤ y.1) := by
    simp [List.chain'_cons]
  have h2 : (([(2, 9), (3, 9)] : List (Nat × Nat)).Chain' fun x y => x.1 ≤ y.1) := by
    simp [List.chain'_cons]
  exact ⟨h1, h2, C7_merge_with_binary_search_correct _ _ h1 h2⟩

end SquareMapModel

/-! ### Correctness of `geert::remove_duplicates` (claim C8)

For a sorted range the algorithm keeps exactly the slots whose key occurs
once.  The proof decomposes the input along the algorithm's phases: the
untouched strictly-increasing prefix (`advanceUnique`), each adjacent
equal-key block (`skipAdjEq`), and the moved unique blocks (`advanceUnique`
again), and computes the filter over each part. -/

namespace SquareMapModel

variable {α β : Type} [LinearOrder α] [Inhabited α] [Inhabited β]

instance : IsTrans (α × β) (fun x y => x.1 < y.1) :=
  ⟨fun _ _ _ h1 h2 => lt_trans h1 h2⟩

/-- The number of slots of `l` whose key is `k`. -/
def keyCount (l : List (α × β)) (k : α) : Nat :=
  l.countP (fun y => decide (y.1 = k))

omit [Inhabited α] [Inhabited β] in
theorem keyCount_append (u v : List (α × β)) (k : α) :
    keyCount (u ++ v) k = keyCount u k + keyCount v k :=
  List.countP_append _ _ _

omit [Inhabited α] [Inhabited β] in
theorem keyCount_eq_zero {l : List (α × β)} {k : α} (h : ∀ y ∈ l, y.1 ≠ k) :
    keyCount l k = 0 := by
  rw [keyCount, List.countP_eq_zero]
  intro y hy
  simpa using h y hy

omit [Inhabited α] [Inhabited β] in
theorem keyCount_eq_length {l : List (α × β)} {k : α} (h : ∀ y ∈ l, y.1 = k) :
    keyCount l k = l.length := by
  rw [keyCount, List.countP_eq_length]
  intro y hy
  simpa using h y hy

omit [Inhabited α] [Inhabited β] in
theorem pairwise_keyCount {p : List (α × β)}
    (hp : p.Pairwise fun x y => x.1 < y.1) {x : α × β} (hx : x ∈ p) :
    keyCount p x.1 = 1 := by
  induction p with
  | nil => cases hx
  | cons a p ih =>
    rw [List.pairwise_cons] at hp
    rw [keyCount, List.countP_cons]
    rcases List.mem_cons.mp hx with rfl | hx
    · have h0 : keyCount p x.1 = 0 :=
        keyCount_eq_zero (fun y hy => (ne_of_gt (hp.1 y hy)))
      rw [keyCount] at h0
      simp [h0]
    · have h1 := ih hp.2 hx
      rw [keyCount] at h1
      have hne : ¬ (a.1 = x.1) := ne_of_lt (hp.1 x hx)
      simp [h1, hne]

omit [Inhabited α] [Inhabited β] in
/-- Splitting a filter by key multiplicity across a strictly increasing
prefix whose keys all lie below the suffix. -/
theorem filter_keyCount_split (p s : List (α × β))
    (hp : p.Pairwise fun x y => x.1 < y.1)
    (hcross : ∀ x ∈ p, ∀ y ∈ s, x.1 < y.1) :
    (p ++ s).filter (fun x => decide (keyCount (p ++ s) x.1 = 1)) =
      p ++ s.filter (fun x => decide (keyCount s x.1 = 1)) := by
  rw [List.filter_append]
  have hpp : p.filter (fun x => decide (keyCount (p ++ s) x.1 = 1)) = p := by
    rw [List.filter_eq_self]
    intro x hx
    have h1 : keyCount (p ++ s) x.1 = 1 := by
      rw [keyCount_append, pairwise_keyCount hp hx,
        keyCount_eq_zero (fun y hy => (ne_of_gt (hcross x hx y hy)))]
    simp [h1]
  have hss : s.filter (fun x => decide (keyCount (p ++ s) x.1 = 1)) =
      s.filter (fun x => decide (keyCount s x.1 = 1)) := by
    refine List.filter_congr (fun x hx => ?_)
    have h0 : keyCount p x.1 = 0 :=
      keyCount_eq_zero (fun y hy => ne_of_lt (hcross y hy x hx))
    rw [keyCount_append, h0, Nat.zero_add]
  rw [hpp, hss]

omit [Inhabited α] [Inhabited β] in
/-- An adjacent equal-key block of length at least two contributes nothing to
the filter; a suffix with strictly larger keys filters independently. -/
theorem filter_dup_block (blk d : List (α × β)) (c : α)
    (hkey : ∀ x ∈ blk, x.1 = c) (hlen : 2 ≤ blk.length)
    (hd : ∀ y ∈ d, c < y.1) :
    (blk ++ d).filter (fun x => decide (keyCount (blk ++ d) x.1 = 1)) =
      d.filter (fun x => decide (keyCount d x.1 = 1)) := by
  rw [List.filter_append]
  have hblk : blk.filter (fun x => decide (keyCount (blk ++ d) x.1 = 1)) = [] := by
    rw [List.filter_eq_nil_iff]
    intro x hx
    have hx1 : x.1 = c := hkey x hx
    have h2 : keyCount (blk ++ d) x.1 = blk.length := by
      rw [keyCount_append, keyCount_eq_length (fun y hy => (hkey y hy).trans hx1.symm),
        keyCount_eq_zero (fun y hy => ne_of_gt (hx1 ▸ hd y hy)), Nat.add_zero]
    simp only [h2, decide_eq_true_eq]
    omega
  have hdd : d.filter (fun x => decide (keyCount (blk ++ d) x.1 = 1)) =
      d.filter (fun x => decide (keyCount d x.1 = 1)) := by
    refine List.filter_congr (fun x hx => ?_)
    have h0 : keyCount blk x.1 = 0 :=
      keyCount_eq_zero (fun y hy => ne_of_lt ((hkey y hy) ▸ hd x hx))
    rw [keyCount_append, h0, Nat.zero_add]
  rw [hblk, hdd]
  simp

omit [Inhabited α] [Inhabited β] in
/-- What the untouched-prefix loop computes on a sorted range: a
strictly-increasing prefix, all of it below the suffix, and the suffix (if
longer than one slot) starting with an equal-key pair. -/
theorem advanceUnique_spec :
    ∀ l : List (α × β), l.Chain' (fun x y => x.1 ≤ y.1) →
      (advanceUnique l).1 ++ (advanceUnique l).2 = l ∧
      StrictChain (advanceUnique l).1 ∧
      (∀ x ∈ (advanceUnique l).1, ∀ y ∈ (advanceUnique l).2, x.1 < y.1) ∧
      (∀ a b t, (advanceUnique l).2 = a :: b :: t → a.1 = b.1)
  | [], _ => by
    refine ⟨rfl, ?_, by simp [advanceUnique], by simp [advanceUnique]⟩
    simp [advanceUnique, StrictChain]
  | [x], _ => by
    refine ⟨rfl, ?_, by simp [advanceUnique], by simp [advanceUnique]⟩
    simp [advanceUnique, StrictChain]
  | a :: b :: r, h => by
    have hab : a.1 ≤ b.1 := (List.chain'_cons.mp h).1
    have hbr : (b :: r).Chain' (fun x y => x.1 ≤ y.1) := (List.chain'_cons.mp h).2
    by_cases hlt : a.1 < b.1
    · obtain ⟨happ, hstrict, hcross, hshape⟩ := advanceUnique_spec (b :: r) hbr
      have hdef : advanceUnique (a :: b :: r) =
          (a :: (advanceUnique (b :: r)).1, (advanceUnique (b :: r)).2) := by
        simp [advanceUnique, hlt]
      rw [hdef]
      have hble : ∀ y ∈ b :: r, b.1 ≤ y.1 := by
        intro y hy
        rcases List.mem_cons.mp hy with rfl | hy
        · exact le_refl _
        · exact List.rel_of_pairwise_cons
            (List.chain'_iff_pairwise.mp hbr) hy
      refine ⟨by simpa using happ, ?_, ?_, hshape⟩
      · rcases hhd : (advanceUnique (b :: r)).1 with _ | ⟨p0, p'⟩
        · simp [StrictChain]
        · have hp0 : p0 = b := by
            have := happ
            rw [hhd] at this
            exact (List.cons_eq_cons.mp this.symm).1.symm
          rw [StrictChain, List.chain'_cons]
          subst hp0
          exact ⟨hlt, by rw [StrictChain] at hstrict; rw [← hhd]; exact hstrict⟩
      · intro x hx y hy
        rcases List.mem_cons.mp hx with rfl | hx
        · have hyb : y ∈ b :: r := by
            rw [← happ]
            exact List.mem_append_right _ hy
          exact lt_of_lt_of_le hlt (hble y hyb)
        · exact hcross x hx y hy
    · have hdef : advanceUnique (a :: b :: r) = ([], a :: b :: r) := by
        simp [advanceUnique, hlt]
      rw [hdef]
      refine ⟨rfl, by simp [StrictChain], by simp, ?_⟩
      intro a' b' t ht
      rw [List.cons_eq_cons] at ht
      obtain ⟨rfl, ht⟩ := ht
      rw [List.cons_eq_cons] at ht
      obtain ⟨rfl, _⟩ := ht
      exact le_antisymm hab (not_lt.mp hlt)

omit [Inhabited α] [Inhabited β] in
/-- What the duplicate-skipping loop computes on a sorted range: it lands on
the last slot of the leading equal-key block. -/
theorem skipAdjEq_spec :
    ∀ (x : α × β) (u : List (α × β)), (x :: u).Chain' (fun a c => a.1 ≤ c.1) →
      ∃ g w d, x :: u = g ++ w :: d ∧
        skipAdjEq (x :: u) = w :: d ∧
        (∀ y ∈ g, y.1 = x.1) ∧ w.1 = x.1 ∧
        (∀ y ∈ d, x.1 < y.1)
  | x, [], _ => ⟨[], x, [], by simp, by simp [skipAdjEq], by simp, rfl, by simp⟩
  | x, y :: u, h => by
    have hxy : x.1 ≤ y.1 := (List.chain'_cons.mp h).1
    have hyu : (y :: u).Chain' (fun a c => a.1 ≤ c.1) := (List.chain'_cons.mp h).2
    by_cases hlt : x.1 < y.1
    · refine ⟨[], x, y :: u, by simp, ?_, by simp, rfl, ?_⟩
      · simp [skipAdjEq, hlt]
      · intro z hz
        rcases List.mem_cons.mp hz with rfl | hz
        · exact hlt
        · exact lt_of_lt_of_le hlt
            (List.rel_of_pairwise_cons (List.chain'_iff_pairwise.mp hyu) hz)
    · have hxy1 : y.1 = x.1 := le_antisymm (not_lt.mp hlt) hxy
      obtain ⟨g, w, d, happ, hskip, hg, hw, hd⟩ := skipAdjEq_spec y u hyu
      refine ⟨x :: g, w, d, by rw [List.cons_append, ← happ], ?_,
        ?_, hw.trans hxy1, fun z hz => hxy1 ▸ hd z hz⟩
      · rw [show skipAdjEq (x :: y :: u) = skipAdjEq (y :: u) by
          simp [skipAdjEq, hlt], hskip]
      · intro z hz
        rcases List.mem_cons.mp hz with rfl | hz
        · rfl
        · exact (hg z hz).trans hxy1

omit [Inhabited α] [Inhabited β] in
theorem rdOuter_nil (fuel : Nat) : rdOuter fuel ([] : List (α × β)) = [] := by
  cases fuel <;> simp [rdOuter]

omit [Inhabited α] [Inhabited β] in
/-- The compaction loop keeps exactly the slots whose key occurs once, for a
sorted suffix that (when it has two or more slots) begins with an equal-key
pair. -/
theorem rdOuter_eq_filter :
    ∀ (fuel : Nat) (s : List (α × β)), s.Chain' (fun x y => x.1 ≤ y.1) →
      s.length ≤ fuel + 1 → (∀ a b t, s = a :: b :: t → a.1 = b.1) →
      rdOuter (fuel + 1) s =
        s.filter (fun x => decide (keyCount s x.1 = 1)) := by
  intro fuel
  induction fuel using Nat.strong_induction_on with
  | _ fuel ih =>
    intro s hs hlen hdup
    match s with
    | [] => simp [rdOuter]
    | [x] => simp [rdOuter, keyCount]
    | a :: b :: t =>
      have hab : a.1 = b.1 := hdup a b t rfl
      have hbt : (b :: t).Chain' (fun x y => x.1 ≤ y.1) := (List.chain'_cons.mp hs).2
      obtain ⟨g, w, d, happ, hskip, hg, hw, hd⟩ := skipAdjEq_spec b t hbt
      have hblk : ∀ x ∈ a :: (g ++ [w]), x.1 = a.1 := by
        intro x hx
        rcases List.mem_cons.mp hx with rfl | hx
        · rfl
        · rcases List.mem_append.mp hx with hx | hx
          · exact (hg x hx).trans hab.symm
          · rcases List.mem_singleton.mp hx with rfl
            exact hw.trans hab.symm
      have hsblk : a :: b :: t = (a :: (g ++ [w])) ++ d := by
        rw [List.cons_append, List.append_assoc, List.singleton_append, ← happ]
      have hdgt : ∀ y ∈ d, a.1 < y.1 := fun y hy => hab ▸ hd y hy
      match hdm : d with
      | [] =>
        rw [show rdOuter (fuel + 1) (a :: b :: t) = [] by
          rw [rdOuter, hskip]]
        rw [hsblk]
        rw [show (a :: (g ++ [w])) ++ ([] : List (α × β)) = (a :: (g ++ [w])) ++ [] from rfl]
        rw [filter_dup_block (a :: (g ++ [w])) [] a.1 hblk (by simp) (by simp)]
        simp
      | y0 :: d' =>
        have hdsort : (y0 :: d').Chain' (fun x y => x.1 ≤ y.1) := by
          have h6 := hs
          rw [hsblk, List.chain'_append] at h6
          exact h6.2.1
        obtain ⟨hpapp, hpstrict, hpcross, hpshape⟩ :=
          advanceUnique_spec (y0 :: d') hdsort
        obtain ⟨p2, s3, hau⟩ : ∃ p2 s3, advanceUnique (y0 :: d') = (p2, s3) :=
          ⟨_, _, rfl⟩
        simp only [hau] at hpapp hpstrict hpcross hpshape
        have hterm : rdOuter (fuel + 1) (a :: b :: t) = p2 ++ rdOuter fuel s3 := by
          rw [rdOuter, hskip]
          show (advanceUnique (y0 :: d')).1 ++ rdOuter fuel (advanceUnique (y0 :: d')).2 =
            p2 ++ rdOuter fuel s3
          rw [hau]
        have hfuel : s3.length ≤ fuel := by
          have h1 : (a :: b :: t).length = (a :: (g ++ [w])).length + (y0 :: d').length := by
            rw [hsblk, List.length_append]
          have h2 : s3.length ≤ (y0 :: d').length := by
            conv_rhs => rw [← hpapp]
            rw [List.length_append]
            omega
          have h3 : 2 ≤ (a :: (g ++ [w])).length := by simp
          have h4 := hlen
          rw [h1] at h4
          omega
        have hs3sort : s3.Chain' (fun x y => x.1 ≤ y.1) := by
          have h5 := hdsort
          rw [← hpapp, List.chain'_append] at h5
          exact h5.2.1
        rw [hterm, hsblk,
          filter_dup_block (a :: (g ++ [w])) (y0 :: d') a.1 hblk (by simp) hdgt,
          ← hpapp,
          filter_keyCount_split p2 s3 (List.chain'_iff_pairwise.mp hpstrict) hpcross]
        match hs3m : s3, hfuel, hs3sort, hpshape with
        | [], _, _, _ => rw [rdOuter_nil]; simp
        | [x1], hfuel, _, _ =>
          obtain ⟨f, rfl⟩ : ∃ f, fuel = f + 1 := ⟨fuel - 1, by simp at hfuel; omega⟩
          simp [rdOuter, keyCount]
        | x1 :: x2 :: t2, hfuel, hs3sort, hpshape =>
          obtain ⟨f, rfl⟩ : ∃ f, fuel = f + 1 := ⟨fuel - 1, by simp at hfuel; omega⟩
          rw [ih f (by omega) (x1 :: x2 :: t2) hs3sort (by simpa using hfuel) hpshape]

omit [Inhabited α] [Inhabited β] in
/-- C8: on a range sorted under the comparator, `remove_duplicates` returns
the position `pos` such that `[first, pos)` holds exactly the slots whose key
occurred once in the input, in their original order; slots of any duplicated
key (pair, triple, or longer run, anywhere in the range) are all dropped. -/
theorem C8_remove_duplicates_unique_keys (l : List (α × β))
    (h : l.Chain' fun x y => x.1 ≤ y.1) :
    remove_duplicates l = l.filter (fun x => decide (keyCount l x.1 = 1)) := by
  obtain ⟨happ, hstrict, hcross, hshape⟩ := advanceUnique_spec l h
  obtain ⟨p, s, hau⟩ : ∃ p s, advanceUnique l = (p, s) := ⟨_, _, rfl⟩
  simp only [hau] at happ hstrict hcross hshape
  have hpair : p.Pairwise fun x y => x.1 < y.1 := by
    rw [StrictChain] at hstrict
    exact List.chain'_iff_pairwise.mp hstrict
  rcases s with _ | ⟨x1, _ | ⟨x2, t2⟩⟩
  · have hrd : remove_duplicates l = l := by
      simp only [remove_duplicates, hau]
    have hl : l = p := by rw [← happ, List.append_nil]
    rw [hrd]
    refine (List.filter_eq_self.mpr (fun x hx => ?_)).symm
    have h1 : keyCount l x.1 = 1 := by
      rw [hl] at hx ⊢
      exact pairwise_keyCount hpair hx
    simp [h1]
  · have hrd : remove_duplicates l = l := by
      simp only [remove_duplicates, hau]
    rw [hrd, ← happ,
      filter_keyCount_split p [x1] hpair hcross]
    simp [keyCount]
  · have hrd : remove_duplicates l =
        p ++ rdOuter (x1 :: x2 :: t2).length (x1 :: x2 :: t2) := by
      simp only [remove_duplicates, hau]
    have hsort : (x1 :: x2 :: t2).Chain' fun x y => x.1 ≤ y.1 := by
      have h5 := h
      rw [← happ, List.chain'_append] at h5
      exact h5.2.1
    rw [hrd, ← happ, filter_keyCount_split p (x1 :: x2 :: t2) hpair hcross]
    simp only [List.length_cons]
    rw [rdOuter_eq_filter (t2.length + 1) (x1 :: x2 :: t2) hsort (by simp) hshape]

/-- Witness for C8 at a sorted range with a pair (key 2), a unique key
between duplicates, and a trailing triple (key 4). -/
theorem C8_witness :
    (([(1, 0), (2, 7), (2, 8), (3, 0), (4, 1), (4, 2), (4, 3)] :
        List (Nat × Nat)).Chain' fun x y => x.1 ≤ y.1) ∧
    remove_duplicates
        ([(1, 0), (2, 7), (2, 8), (3, 0), (4, 1), (4, 2), (4, 3)] : List (Nat × Nat)) =
      ([(1, 0), (2, 7), (2, 8), (3, 0), (4, 1), (4, 2), (4, 3)] :
        List (Nat × Nat)).filter
        (fun x => decide (keyCount
          ([(1, 0), (2, 7), (2, 8), (3, 0), (4, 1), (4, 2), (4, 3)] :
            List (Nat × Nat)) x.1 = 1)) := by
  have h1 : (([(1, 0), (2, 7), (2, 8), (3, 0), (4, 1), (4, 2), (4, 3)] :
      List (Nat × Nat)).Chain' fun x y => x.1 ≤ y.1) := by
    simp [List.chain'_cons]
  exact ⟨h1, C8_remove_duplicates_unique_keys _ h1⟩

end SquareMapModel

/-! ### Correctness of `find` over steady states (claim C4, shared by
C5, C6 and C9)

`std::lower_bound` on a sorted run finds a key exactly when it is present,
which characterises the `isLeft` / `isRight` conditions of `find` and
`insert` as run membership. -/

namespace SquareMapModel

variable {α β : Type} [LinearOrder α] [Inhabited α] [Inhabited β]

omit [Inhabited α] [Inhabited β] in
theorem lowerBound_le_length (l : List (α × β)) (k : α) :
    lowerBound l k ≤ l.length :=
  List.findIdx_le_length _

theorem lt_key_of_lt_lowerBound :
    ∀ (l : List (α × β)) (k : α) (j : Nat), j < lowerBound l k → keyAt l j < k
  | [], k, j, hj => by simp [lowerBound] at hj
  | a :: l, k, j, hj => by
    rw [lowerBound, List.findIdx_cons] at hj
    by_cases h : k ≤ a.1
    · simp [h] at hj
    · rw [show (decide (k ≤ a.1)) = false by simp [h]] at hj
      simp only [cond_false] at hj
      match j with
      | 0 => simpa [keyAt] using not_le.mp h
      | j + 1 =>
        rw [keyAt, List.getD_cons_succ]
        exact lt_key_of_lt_lowerBound l k j (by rw [lowerBound]; omega)

theorem le_key_lowerBound :
    ∀ (l : List (α × β)) (k : α), lowerBound l k < l.length →
      k ≤ keyAt l (lowerBound l k)
  | [], k, h => by simp [lowerBound] at h
  | a :: l, k, h => by
    rw [lowerBound, List.findIdx_cons] at h ⊢
    by_cases hk : k ≤ a.1
    · simp [hk, keyAt]
    · rw [show (decide (k ≤ a.1)) = false by simp [hk]] at h ⊢
      simp only [cond_false] at h ⊢
      rw [keyAt, List.getD_cons_succ]
      have h2 : lowerBound l k < l.length := by
        rw [lowerBound]
        rw [List.length_cons] at h
        omega
      exact le_key_lowerBound l k h2

theorem keyAt_lt_keyAt {l : List (α × β)} (hs : StrictChain l) {i j : Nat}
    (hij : i < j) (hj : j < l.length) : keyAt l i < keyAt l j := by
  have hp := List.chain'_iff_pairwise.mp hs
  have hi : i < l.length := lt_trans hij hj
  rw [keyAt, keyAt, List.getD_eq_getElem l default hi, List.getD_eq_getElem l default hj]
  exact List.pairwise_iff_getElem.mp hp i j hi hj hij

omit [LinearOrder α] in
theorem mem_keys_of_keyAt {l : List (α × β)} {i : Nat} (hi : i < l.length) :
    keyAt l i ∈ keys l := by
  rw [keyAt, List.getD_eq_getElem l default hi, keys]
  exact List.mem_map.mpr ⟨_, List.getElem_mem hi, rfl⟩

/-- On a strictly sorted run, `lower_bound` lands on the key exactly when the
key is present. -/
theorem lowerBound_found_iff (l : List (α × β)) (hs : StrictChain l) (k : α) :
    (lowerBound l k < l.length ∧ ¬ k < keyAt l (lowerBound l k)) ↔ k ∈ keys l := by
  constructor
  · rintro ⟨hlt, hnot⟩
    have h1 : keyAt l (lowerBound l k) = k :=
      le_antisymm (not_lt.mp hnot) (le_key_lowerBound l k hlt)
    rw [← h1]
    exact mem_keys_of_keyAt hlt
  · intro hk
    obtain ⟨x, hx, hxk⟩ := List.mem_map.mp hk
    obtain ⟨j, hj, hxj⟩ := List.mem_iff_getElem.mp hx
    have hkj : keyAt l j = k := by
      rw [keyAt, List.getD_eq_getElem l default hj, hxj, hxk]
    have hjl : ¬ j < lowerBound l k := by
      intro hc
      exact absurd (hkj ▸ lt_key_of_lt_lowerBound l k j hc) (lt_irrefl k)
    have hlb : lowerBound l k < l.length := lt_of_le_of_lt (not_lt.mp hjl) hj
    refine ⟨hlb, ?_⟩
    rcases eq_or_lt_of_le (not_lt.mp hjl) with heq | hlt
    · rw [heq, hkj]
      exact lt_irrefl k
    · have := keyAt_lt_keyAt hs hlt hj
      rw [hkj] at this
      exact not_lt.mpr (le_of_lt this)

omit [LinearOrder α] in
theorem keyAt_take {c : List (α × β)} {s j : Nat} (hj : j < (c.take s).length) :
    keyAt (c.take s) j = keyAt c j := by
  have hjc : j < c.length := by
    rw [List.length_take] at hj
    omega
  rw [keyAt, keyAt, List.getD_eq_getElem _ default hj, List.getD_eq_getElem _ default hjc,
    List.getElem_take]

omit [LinearOrder α] in
theorem keyAt_drop {c : List (α × β)} {s j : Nat} (hj : j < (c.drop s).length) :
    keyAt (c.drop s) j = keyAt c (s + j) := by
  have hjc : s + j < c.length := by
    rw [List.length_drop] at hj
    omega
  rw [keyAt, keyAt, List.getD_eq_getElem _ default hj, List.getD_eq_getElem _ default hjc,
    List.getElem_drop]

theorem valid_split_le {m : SquareMap α β} (h : Valid m) :
    m.split ≤ m.container.length := by
  rcases h.1 with h0 | h0
  · omega
  · omega

theorem leftRun_length {m : SquareMap α β} (h : Valid m) :
    (leftRun m).length = m.split := by
  rw [leftRun, List.length_take]
  have := valid_split_le h
  omega

omit [LinearOrder α] [Inhabited α] [Inhabited β] in
theorem rightRun_length (m : SquareMap α β) :
    (rightRun m).length = m.container.length - m.split := by
  rw [rightRun, List.length_drop]

/-- The `isLeft` condition of `find` / the `inLeft` condition of `insert`
holds exactly when the key is in the left run. -/
theorem left_cond_iff (m : SquareMap α β) (h : Valid m) (k : α) :
    (lowerBound (leftRun m) k < m.split ∧
      ¬ k < keyAt m.container (lowerBound (leftRun m) k)) ↔ k ∈ leftKeys m := by
  have hlen0 : (leftRun m).length = m.split := leftRun_length h
  rw [leftKeys, ← lowerBound_found_iff (leftRun m) h.2.1 k, hlen0]
  have hrw : lowerBound (leftRun m) k < m.split →
      keyAt (leftRun m) (lowerBound (leftRun m) k) =
        keyAt m.container (lowerBound (leftRun m) k) := by
    intro h1
    have hlen1 : lowerBound (leftRun m) k < (m.container.take m.split).length := by
      rw [List.length_take]
      have := valid_split_le h
      omega
    exact @keyAt_take α β _ _ m.container m.split (lowerBound (leftRun m) k) hlen1
  constructor
  · rintro ⟨h1, h2⟩
    rw [hrw h1]
    exact ⟨h1, h2⟩
  · rintro ⟨h1, h2⟩
    rw [hrw h1] at h2
    exact ⟨h1, h2⟩

/-- The `isRight` condition of `find` / the `inRight` condition of `insert`
holds exactly when the key is in the right run. -/
theorem right_cond_iff (m : SquareMap α β) (h : Valid m) (k : α) :
    (m.split + lowerBound (rightRun m) k < m.container.length ∧
      ¬ k < keyAt m.container (m.split + lowerBound (rightRun m) k)) ↔
      k ∈ rightKeys m := by
  have hle := valid_split_le h
  rw [rightKeys, ← lowerBound_found_iff (rightRun m) h.2.2.1 k, rightRun_length]
  have hrw : lowerBound (rightRun m) k < m.container.length - m.split →
      keyAt (rightRun m) (lowerBound (rightRun m) k) =
        keyAt m.container (m.split + lowerBound (rightRun m) k) := by
    intro h1
    have hlen1 : lowerBound (rightRun m) k < (m.container.drop m.split).length := by
      rw [List.length_drop]
      omega
    exact @keyAt_drop α β _ _ m.container m.split (lowerBound (rightRun m) k) hlen1
  constructor
  · rintro ⟨h1, h2⟩
    have h1' : lowerBound (rightRun m) k < m.container.length - m.split := by omega
    rw [hrw h1']
    exact ⟨h1', h2⟩
  · rintro ⟨h1, h2⟩
    rw [hrw h1] at h2
    exact ⟨by omega, h2⟩

end SquareMapModel

namespace SquareMapModel

variable {α β : Type} [LinearOrder α] [Inhabited α] [Inhabited β]

omit [LinearOrder α] in
theorem getD_take {c : List (α × β)} {s j : Nat} (hj : j < (c.take s).length) :
    (c.take s).getD j default = c.getD j default := by
  have hjc : j < c.length := by
    rw [List.length_take] at hj
    omega
  rw [List.getD_eq_getElem _ default hj, List.getD_eq_getElem _ default hjc,
    List.getElem_take]

omit [LinearOrder α] in
theorem getD_drop {c : List (α × β)} {s j : Nat} (hj : j < (c.drop s).length) :
    (c.drop s).getD j default = c.getD (s + j) default := by
  have hjc : s + j < c.length := by
    rw [List.length_drop] at hj
    omega
  rw [List.getD_eq_getElem _ default hj, List.getD_eq_getElem _ default hjc,
    List.getElem_drop]

/-- On a strictly sorted run, `find?` by key returns the slot at any index
known to carry that key. -/
theorem find?_strictChain :
    ∀ {l : List (α × β)} {k : α} {j : Nat}, StrictChain l → j < l.length →
      keyAt l j = k → l.find? (fun e => decide (e.1 = k)) = some (l.getD j default)
  | [], _, j, _, hj, _ => by simp at hj
  | a :: l, k, 0, _, _, hk => by
    rw [keyAt, List.getD_cons_zero] at hk
    rw [List.getD_cons_zero, List.find?_cons_of_pos _ (by simp [hk])]
  | a :: l, k, j + 1, hs, hj, hk => by
    rw [keyAt, List.getD_cons_succ] at hk
    have hjl : j < l.length := by
      rw [List.length_cons] at hj
      omega
    have hlt : a.1 < keyAt l j := by
      have h2 := keyAt_lt_keyAt hs (Nat.succ_pos j) hj
      rwa [keyAt, List.getD_cons_zero, keyAt, List.getD_cons_succ, ← keyAt] at h2
    have hane : ¬ (a.1 = k) := ne_of_lt (hk ▸ hlt)
    have htail : StrictChain l := by
      rw [StrictChain] at hs ⊢
      exact (List.chain'_cons'.mp hs).2
    rw [List.getD_cons_succ, List.find?_cons_of_neg _ (by simp [hane])]
    exact find?_strictChain htail hjl hk

omit [LinearOrder α] [Inhabited α] [Inhabited β] in
theorem leftRun_flat {m : SquareMap α β} (hs : m.split = 0) : leftRun m = [] := by
  rw [leftRun, hs, List.take_zero]

omit [LinearOrder α] [Inhabited α] [Inhabited β] in
theorem rightRun_flat {m : SquareMap α β} (hs : m.split = 0) :
    rightRun m = m.container := by
  rw [rightRun, hs, List.drop_zero]

omit [LinearOrder α] [Inhabited α] [Inhabited β] in
theorem liveKey_flat {m : SquareMap α β} (hs : m.split = 0) (k : α) :
    LiveKey m k ↔ k ∈ keys m.container := by
  rw [LiveKey, leftKeys, rightKeys, leftRun_flat hs, rightRun_flat hs]
  simp [keys]

theorem container_strictChain_flat {m : SquareMap α β} (h : Valid m)
    (hs : m.split = 0) : StrictChain m.container := by
  have h2 := h.2.2.1
  rwa [rightRun_flat hs] at h2

/-- `find` on a flat map when the key is absent. -/
theorem find_flat_not_mem {m : SquareMap α β} (h : Valid m) (hs : m.split = 0)
    {k : α} (hm : k ∉ keys m.container) :
    find m k = (m.container.length, m.container.length) := by
  have hcond : lowerBound m.container k = m.container.length ∨
      k < keyAt m.container (lowerBound m.container k) := by
    by_contra hc
    push_neg at hc
    exact hm ((lowerBound_found_iff m.container (container_strictChain_flat h hs) k).mp
      ⟨lt_of_le_of_ne (lowerBound_le_length m.container k) hc.1, not_lt.mpr hc.2⟩)
  simp only [find, if_pos hs]
  rw [if_pos hcond]

/-- `find` on a flat map when the key is present. -/
theorem find_flat_mem {m : SquareMap α β} (h : Valid m) (hs : m.split = 0)
    {k : α} (hm : k ∈ keys m.container) :
    find m k = (lowerBound m.container k, m.container.length - 1) := by
  obtain ⟨hlb, hkey⟩ :=
    (lowerBound_found_iff m.container (container_strictChain_flat h hs) k).mpr hm
  have hcond : ¬ (lowerBound m.container k = m.container.length ∨
      k < keyAt m.container (lowerBound m.container k)) := by
    push_neg
    exact ⟨ne_of_lt hlb, not_lt.mp hkey⟩
  simp only [find, if_pos hs]
  rw [if_neg hcond]

/-- `find` on a split map when the key is in both runs or in neither. -/
theorem find_split_end {m : SquareMap α β} (h : Valid m) (hs : m.split ≠ 0)
    {k : α} (hiff : k ∈ leftKeys m ↔ k ∈ rightKeys m) :
    find m k = (m.container.length, m.container.length) := by
  have hcond := (left_cond_iff m h k).trans (hiff.trans (right_cond_iff m h k).symm)
  simp only [find, if_neg hs]
  rw [if_pos hcond]

/-- `find` on a split map when the key is live in the left run. -/
theorem find_split_left {m : SquareMap α β} (h : Valid m) (hs : m.split ≠ 0)
    {k : α} (hl : k ∈ leftKeys m) (hr : k ∉ rightKeys m) :
    find m k = (lowerBound (leftRun m) k,
      m.split + lowerBound (rightRun m) k) := by
  have hCL := (left_cond_iff m h k).mpr hl
  have hCR : ¬ (m.split + lowerBound (rightRun m) k < m.container.length ∧
      ¬ k < keyAt m.container (m.split + lowerBound (rightRun m) k)) :=
    fun hc => hr ((right_cond_iff m h k).mp hc)
  have hcond : ¬ ((lowerBound (leftRun m) k < m.split ∧
      ¬ k < keyAt m.container (lowerBound (leftRun m) k)) ↔
      (m.split + lowerBound (rightRun m) k < m.container.length ∧
        ¬ k < keyAt m.container (m.split + lowerBound (rightRun m) k))) :=
    fun hif => hCR (hif.mp hCL)
  simp only [find, if_neg hs]
  rw [if_neg hcond, if_pos hCL]

/-- `find` on a split map when the key is live in the right run: the cursor
sits at the right-run slot. -/
theorem find_split_right_fst {m : SquareMap α β} (h : Valid m) (hs : m.split ≠ 0)
    {k : α} (hl : k ∉ leftKeys m) (hr : k ∈ rightKeys m) :
    (find m k).1 = m.split + lowerBound (rightRun m) k := by
  have hCR := (right_cond_iff m h k).mpr hr
  have hCL : ¬ (lowerBound (leftRun m) k < m.split ∧
      ¬ k < keyAt m.container (lowerBound (leftRun m) k)) :=
    fun hc => hl ((left_cond_iff m h k).mp hc)
  have hcond : ¬ ((lowerBound (leftRun m) k < m.split ∧
      ¬ k < keyAt m.container (lowerBound (leftRun m) k)) ↔
      (m.split + lowerBound (rightRun m) k < m.container.length ∧
        ¬ k < keyAt m.container (m.split + lowerBound (rightRun m) k))) :=
    fun hif => hCL (hif.mpr hCR)
  simp only [find, if_neg hs]
  rw [if_neg hcond, if_neg hCL]
  by_cases hLs : lowerBound (leftRun m) k ≠ m.split
  · rw [if_pos hLs]
  · rw [if_neg hLs]

theorem valid_split_lt {m : SquareMap α β} (h : Valid m) (hs : m.split ≠ 0) :
    m.split < m.container.length := by
  rcases h.1 with h0 | h0
  · exact absurd h0 hs
  · exact h0

/-- `find` returns `end` exactly on absent or erased keys. -/
theorem find_end_iff (m : SquareMap α β) (h : Valid m) (k : α) :
    (find m k).1 = m.container.length ↔ ¬ LiveKey m k := by
  by_cases hs : m.split = 0
  · by_cases hm : k ∈ keys m.container
    · rw [find_flat_mem h hs hm]
      have hlb :=
        ((lowerBound_found_iff m.container (container_strictChain_flat h hs) k).mpr hm).1
      constructor
      · intro h1
        exact absurd h1 (ne_of_lt hlb)
      · intro h2
        exact absurd ((liveKey_flat hs k).mpr hm) h2
    · rw [find_flat_not_mem h hs hm]
      exact iff_of_true rfl (fun hlive => hm ((liveKey_flat hs k).mp hlive))
  · by_cases hl : k ∈ leftKeys m <;> by_cases hr : k ∈ rightKeys m
    · rw [find_split_end h hs (iff_of_true hl hr)]
      exact iff_of_true rfl (by simp [LiveKey, hl, hr])
    · rw [find_split_left h hs hl hr]
      have hlt : lowerBound (leftRun m) k < m.container.length :=
        lt_trans ((left_cond_iff m h k).mpr hl).1 (valid_split_lt h hs)
      constructor
      · intro h1
        exact absurd h1 (ne_of_lt hlt)
      · intro h2
        exact absurd (Or.inl ⟨hl, hr⟩) h2
    · rw [find_split_right_fst h hs hl hr]
      have hlt := ((right_cond_iff m h k).mpr hr).1
      constructor
      · intro h1
        exact absurd h1 (ne_of_lt hlt)
      · intro h2
        exact absurd (Or.inr ⟨hl, hr⟩) h2
    · rw [find_split_end h hs (iff_of_false hl hr)]
      exact iff_of_true rfl (by simp [LiveKey, hl, hr])

/-- On a live key, `find` lands on a slot carrying the key and its stored
value. -/
theorem find_live_spec (m : SquareMap α β) (h : Valid m) (k : α)
    (hk : LiveKey m k) :
    (find m k).1 < m.container.length ∧
    keyAt m.container (find m k).1 = k ∧
    (m.container.getD (find m k).1 default).2 = assocValue m k := by
  by_cases hs : m.split = 0
  · have hm : k ∈ keys m.container := (liveKey_flat hs k).mp hk
    have hsorted := container_strictChain_flat h hs
    obtain ⟨hlb, hkeylt⟩ := (lowerBound_found_iff m.container hsorted k).mpr hm
    have hkey : keyAt m.container (lowerBound m.container k) = k :=
      le_antisymm (not_lt.mp hkeylt) (le_key_lowerBound m.container k hlb)
    rw [find_flat_mem h hs hm]
    refine ⟨hlb, hkey, ?_⟩
    rw [assocValue, leftRun_flat hs]
    simp only [List.find?_nil]
    rw [rightRun_flat hs, find?_strictChain hsorted hlb hkey]
  · rcases hk with ⟨hl, hr⟩ | ⟨hl, hr⟩
    · rw [find_split_left h hs hl hr]
      have hCL := (left_cond_iff m h k).mpr hl
      have hLlen : lowerBound (leftRun m) k < (leftRun m).length := by
        rw [leftRun_length h]
        exact hCL.1
      have hLlen' : lowerBound (leftRun m) k < (m.container.take m.split).length := by
        rw [List.length_take]
        have h1 := valid_split_lt h hs
        have h2 := hCL.1
        omega
    -- the slot at the cursor is the left-run slot
      have hkeyrun : keyAt (leftRun m) (lowerBound (leftRun m) k) = k := by
        have h3 := le_key_lowerBound (leftRun m) k hLlen
        have h4 : keyAt (leftRun m) (lowerBound (leftRun m) k) =
            keyAt m.container (lowerBound (leftRun m) k) :=
          @keyAt_take α β _ _ m.container m.split (lowerBound (leftRun m) k) hLlen'
        rw [h4] at h3 ⊢
        exact le_antisymm (not_lt.mp hCL.2) h3
      have hkey : keyAt m.container (lowerBound (leftRun m) k) = k := by
        rw [← @keyAt_take α β _ _ m.container m.split (lowerBound (leftRun m) k) hLlen']
        exact hkeyrun
      refine ⟨lt_trans hCL.1 (valid_split_lt h hs), hkey, ?_⟩
      rw [assocValue, find?_strictChain h.2.1 hLlen hkeyrun]
      show (m.container.getD (lowerBound (leftRun m) k) default).2 =
        ((leftRun m).getD (lowerBound (leftRun m) k) default).2
      rw [show (leftRun m).getD (lowerBound (leftRun m) k) default =
          m.container.getD (lowerBound (leftRun m) k) default from
        @getD_take α β _ _ m.container m.split (lowerBound (leftRun m) k) hLlen']
    · rw [find_split_right_fst h hs hl hr]
      have hCR := (right_cond_iff m h k).mpr hr
      have hRlen : lowerBound (rightRun m) k < (rightRun m).length := by
        rw [rightRun_length]
        omega
      have hRlen' : lowerBound (rightRun m) k < (m.container.drop m.split).length := by
        rw [List.length_drop]
        omega
      have hkeyrun : keyAt (rightRun m) (lowerBound (rightRun m) k) = k := by
        have h3 := le_key_lowerBound (rightRun m) k hRlen
        have h4 : keyAt (rightRun m) (lowerBound (rightRun m) k) =
            keyAt m.container (m.split + lowerBound (rightRun m) k) :=
          @keyAt_drop α β _ _ m.container m.split (lowerBound (rightRun m) k) hRlen'
        rw [h4] at h3 ⊢
        exact le_antisymm (not_lt.mp hCR.2) h3
      have hkey : keyAt m.container (m.split + lowerBound (rightRun m) k) = k := by
        rw [← @keyAt_drop α β _ _ m.container m.split (lowerBound (rightRun m) k) hRlen']
        exact hkeyrun
      refine ⟨hCR.1, hkey, ?_⟩
      have hnone : (leftRun m).find? (fun e => decide (e.1 = k)) = none := by
        rw [List.find?_eq_none]
        intro x hx
        simp only [decide_eq_true_eq]
        intro hxk
        exact hl (List.mem_map.mpr ⟨x, hx, hxk⟩)
      rw [assocValue, hnone, find?_strictChain h.2.2.1 hRlen hkeyrun]
      show (m.container.getD (m.split + lowerBound (rightRun m) k) default).2 =
        ((rightRun m).getD (lowerBound (rightRun m) k) default).2
      rw [show (rightRun m).getD (lowerBound (rightRun m) k) default =
          m.container.getD (m.split + lowerBound (rightRun m) k) default from
        @getD_drop α β _ _ m.container m.split (lowerBound (rightRun m) k) hRlen']

/-- C4: over every steady state, `find(k)` returns `end` exactly when `k` is
absent or erased (present as a duplicate pair); on a live key (present in
exactly one run, i.e. inserted and not erased since) the returned cursor
denotes a slot whose key is `k` and whose value is the value stored with `k`
(the last one associated with it). -/
theorem C4_find_correct (m : SquareMap α β) (h : Valid m) (k : α) :
    ((find m k).1 = m.container.length ↔ ¬ LiveKey m k) ∧
    (LiveKey m k →
      keyAt m.container (find m k).1 = k ∧
      (m.container.getD (find m k).1 default).2 = assocValue m k) :=
  ⟨find_end_iff m h k, fun hk =>
    ⟨(find_live_spec m h k hk).2.1, (find_live_spec m h k hk).2.2⟩⟩

/-- Witness state for C4: left run `1 2 3`, right run `0 2 4`, key 2 erased. -/
def C4State : SquareMap Nat Nat :=
  ⟨[(1, 1), (2, 2), (3, 3), (0, 0), (2, 0), (4, 4)], 3, 1⟩

/-- Witness for C4 at a concrete steady state and the live key 3. -/
theorem C4_witness :
    Valid C4State ∧
    (((find C4State 3).1 = C4State.container.length ↔ ¬ LiveKey C4State 3) ∧
    (LiveKey C4State 3 →
      keyAt C4State.container (find C4State 3).1 = 3 ∧
      (C4State.container.getD (find C4State 3).1 default).2 = assocValue C4State 3)) :=
  ⟨by decide, C4_find_correct C4State (by decide) 3⟩

end SquareMapModel

/-! ### The amended claims C5, C6 and C9 -/

namespace SquareMapModel

variable {α β : Type} [LinearOrder α] [Inhabited α] [Inhabited β]

/-- The boolean returned by `insert` is `true` exactly when the key is in
neither run (neither live nor erased). -/
theorem insert_inserted (kMin : Nat) (m : SquareMap α β) (h : Valid m)
    (k : α) (v : β) :
    (insert kMin m (k, v)).2.1 = true ↔
      (k ∉ leftKeys m ∧ k ∉ rightKeys m) := by
  by_cases hl : k ∈ leftKeys m <;> by_cases hr : k ∈ rightKeys m
  · have hCL := (left_cond_iff m h k).mpr hl
    have hCR := (right_cond_iff m h k).mpr hr
    simp only [insert]
    rw [if_pos hCL, if_pos hCR]
    simp [hl]
  · have hCL := (left_cond_iff m h k).mpr hl
    have hCR : ¬ (m.split + lowerBound (rightRun m) k < m.container.length ∧
        ¬ k < keyAt m.container (m.split + lowerBound (rightRun m) k)) :=
      fun hc => hr ((right_cond_iff m h k).mp hc)
    simp only [insert]
    rw [if_pos hCL, if_neg hCR]
    simp [hl]
  · have hCL : ¬ (lowerBound (leftRun m) k < m.split ∧
        ¬ k < keyAt m.container (lowerBound (leftRun m) k)) :=
      fun hc => hl ((left_cond_iff m h k).mp hc)
    have hCR := (right_cond_iff m h k).mpr hr
    simp only [insert]
    rw [if_neg hCL, if_pos hCR]
    simp [hr]
  · have hCL : ¬ (lowerBound (leftRun m) k < m.split ∧
        ¬ k < keyAt m.container (lowerBound (leftRun m) k)) :=
      fun hc => hl ((left_cond_iff m h k).mp hc)
    have hCR : ¬ (m.split + lowerBound (rightRun m) k < m.container.length ∧
        ¬ k < keyAt m.container (m.split + lowerBound (rightRun m) k)) :=
      fun hc => hr ((right_cond_iff m h k).mp hc)
    simp only [insert]
    rw [if_neg hCL, if_neg hCR]
    by_cases hbr : m.container.length - (m.split + lowerBound (rightRun m) k) < kMin ∨
        (m.container.length - m.split) * (m.container.length - m.split) * 4 < m.split
    · rw [if_pos hbr]
      simp [hl, hr]
    · rw [if_neg hbr]
      simp [hl, hr]

/-- `count` is zero exactly on keys that are not live. -/
theorem count_eq_zero_iff (m : SquareMap α β) (h : Valid m) (k : α) :
    count m k = 0 ↔ ¬ LiveKey m k := by
  rw [count]
  by_cases hfe : (find m k).1 = m.container.length
  · rw [if_pos hfe]
    exact iff_of_true rfl ((find_end_iff m h k).mp hfe)
  · rw [if_neg hfe]
    refine iff_of_false one_ne_zero ?_
    intro hc
    exact hfe ((find_end_iff m h k).mpr hc)

/-- C5 (amended): over every steady state, `insert(k, v)` reports
`inserted = true` iff `k` is in neither run immediately before the call,
i.e. iff `count(k) == 0` and `k` is not an erased duplicate pair.  (The
original claim omitted the second conjunct: re-inserting an erased key has
`count(k) == 0` yet reports `inserted = false`, see
`C5_counterexample_erased_reinsert`.) -/
theorem C5_insert_inserted_iff (kMin : Nat) (m : SquareMap α β) (h : Valid m)
    (k : α) (v : β) :
    (insert kMin m (k, v)).2.1 = true ↔
      (count m k = 0 ∧ ¬ ErasedKey m k) := by
  rw [insert_inserted kMin m h k v, count_eq_zero_iff m h k, ErasedKey, LiveKey]
  constructor
  · rintro ⟨hl, hr⟩
    exact ⟨fun hc => by rcases hc with ⟨h1, _⟩ | ⟨_, h2⟩ <;> [exact hl h1; exact hr h2],
      fun hc => hl hc.1⟩
  · rintro ⟨hlive, herased⟩
    by_cases hl : k ∈ leftKeys m <;> by_cases hr : k ∈ rightKeys m
    · exact absurd ⟨hl, hr⟩ herased
    · exact absurd (Or.inl ⟨hl, hr⟩) hlive
    · exact absurd (Or.inr ⟨hl, hr⟩) hlive
    · exact ⟨hl, hr⟩

/-- Witness for C5 at the erased key 2 of `C5State` (both sides of the
equivalence are false) . -/
theorem C5_witness :
    Valid C5State ∧
    ((insert 5 C5State (2, 9)).2.1 = true ↔
      (count C5State 2 = 0 ∧ ¬ ErasedKey C5State 2)) :=
  ⟨by decide, C5_insert_inserted_iff 5 C5State (by decide) 2 9⟩

/-- C6 (amended): `operator[](k)` equals the lookup of the stored value when
`k` is live, leaving the map unchanged; only when `k` is absent or erased is
it `insert(k, mapped_type()).first->second` with the inserted state.  (The
original claim asserted the `insert` equivalence for all keys; it fails on
live keys with non-default values because this `insert` overwrites stored
values, see `C6_counterexample_live_key`.) -/
theorem C6_opIndex_spec (kMin : Nat) (m : SquareMap α β) (h : Valid m) (k : α) :
    (LiveKey m k → opIndex kMin m k = (assocValue m k, m)) ∧
    (¬ LiveKey m k →
      opIndex kMin m k =
        (((insert kMin m (k, default)).2.2.container.getD
            (insert kMin m (k, default)).1.1 default).2,
          (insert kMin m (k, default)).2.2)) := by
  constructor
  · intro hk
    have hne : (find m k).1 ≠ m.container.length :=
      fun hc => absurd hk ((find_end_iff m h k).mp hc)
    simp only [opIndex]
    rw [if_pos hne, (find_live_spec m h k hk).2.2]
  · intro hk
    have heq : (find m k).1 = m.container.length := (find_end_iff m h k).mpr hk
    have hne : ¬ (find m k).1 ≠ m.container.length := not_not_intro heq
    simp only [opIndex]
    rw [if_neg hne]

/-- Witness for C6 at the live key 1 of `C6State`. -/
theorem C6_witness :
    Valid C6State ∧
    ((LiveKey C6State 1 →
      opIndex 5 C6State 1 = (assocValue C6State 1, C6State)) ∧
    (¬ LiveKey C6State 1 →
      opIndex 5 C6State 1 =
        (((insert 5 C6State (1, default)).2.2.container.getD
            (insert 5 C6State (1, default)).1.1 default).2,
          (insert 5 C6State (1, default)).2.2))) :=
  ⟨by decide, C6_opIndex_spec 5 C6State (by decide) 1⟩

/-- C9 (amended): `split_point()` returns `end` iff the map is flat
(`_split = 0`) or the slot at the split index is an erased duplicate; when
`_split ≠ 0` and that slot is live, the returned cursor sits at the split
index.  (The original claim said `end` iff flat; it fails when the first
right-run slot is an erased marker, see
`C9_counterexample_erased_split_slot`.) -/
theorem C9_split_point_spec (m : SquareMap α β) (h : Valid m) :
    ((split_point m).1 = m.container.length ↔
      (m.split = 0 ∨ ErasedKey m (keyAt m.container m.split))) ∧
    (m.split ≠ 0 → ¬ ErasedKey m (keyAt m.container m.split) →
      (split_point m).1 = m.split) := by
  by_cases hs : m.split = 0
  · have hcond : m.container.isEmpty = true ∨ m.split = 0 ∨
        m.container.length ≤ m.split := Or.inr (Or.inl hs)
    simp only [split_point]
    rw [if_pos hcond]
    exact ⟨iff_of_true rfl (Or.inl hs), fun hc => absurd hs hc⟩
  · have hslt : m.split < m.container.length := valid_split_lt h hs
    have hne : m.container ≠ [] := by
      intro hc
      rw [hc] at hslt
      simp at hslt
    have hcond : ¬ (m.container.isEmpty = true ∨ m.split = 0 ∨
        m.container.length ≤ m.split) := by
      push_neg
      refine ⟨?_, hs, by omega⟩
      simpa [List.isEmpty_iff] using hne
    simp only [split_point]
    rw [if_neg hcond]
    have hdlen : (0:Nat) < (m.container.drop m.split).length := by
      rw [List.length_drop]
      omega
    have hk0 : keyAt (rightRun m) 0 = keyAt m.container m.split := by
      show keyAt (m.container.drop m.split) 0 = keyAt m.container m.split
      rw [@keyAt_drop α β _ _ m.container m.split 0 hdlen, Nat.add_zero]
    have hrlen : 0 < (rightRun m).length := by
      rw [rightRun_length]
      omega
    have hkr : keyAt m.container m.split ∈ rightKeys m := by
      rw [rightKeys, ← hk0]
      exact mem_keys_of_keyAt hrlen
    have hlb0 : lowerBound (rightRun m) (keyAt m.container m.split) = 0 := by
      rcases hrr : rightRun m with _ | ⟨r0, rr⟩
      · rw [hrr] at hrlen
        simp at hrlen
      · have hr0 : r0.1 = keyAt m.container m.split := by
          rw [← hk0, hrr, keyAt, List.getD_cons_zero]
        rw [lowerBound, List.findIdx_cons]
        simp [hr0]
    constructor
    · by_cases hl : keyAt m.container m.split ∈ leftKeys m
      · rw [find_split_end h hs (iff_of_true hl hkr)]
        exact iff_of_true rfl (Or.inr ⟨hl, hkr⟩)
      · rw [find_split_right_fst h hs hl hkr, hlb0, Nat.add_zero]
        refine iff_of_false (by omega) ?_
        rintro (h0 | he)
        · exact hs h0
        · exact hl he.1
    · intro _ herased
      have hl : keyAt m.container m.split ∉ leftKeys m :=
        fun hmem => herased ⟨hmem, hkr⟩
      rw [find_split_right_fst h hs hl hkr, hlb0, Nat.add_zero]

/-- Witness state for C9: split map `1 2 3 | 0 4` whose split slot is live. -/
def C9WitState : SquareMap Nat Nat :=
  ⟨[(1, 1), (2, 2), (3, 3), (0, 0), (4, 4)], 3, 0⟩

/-- Witness for C9 at a steady split map with a live slot at the split. -/
theorem C9_witness :
    Valid C9WitState ∧
    (((split_point C9WitState).1 = C9WitState.container.length ↔
      (C9WitState.split = 0 ∨
        ErasedKey C9WitState (keyAt C9WitState.container C9WitState.split))) ∧
    (C9WitState.split ≠ 0 →
      ¬ ErasedKey C9WitState (keyAt C9WitState.container C9WitState.split) →
      (split_point C9WitState).1 = C9WitState.split)) :=
  ⟨by decide, C9_split_point_spec C9WitState (by decide)⟩

end SquareMapModel
